import Mathlib

/-!
Verification of the mdict-rs MDX parser core against its specification.

Bytes are modelled as `Nat` values in `[0, 256)`; multi-byte integers as
`Nat` (all source arithmetic on them stays within `u64` range, so no
wrap-around modelling is needed); decoded strings as lists of Unicode
scalar values (`Nat`).  Fallible operations (Rust panics / `nom` errors /
`Option`) are modelled with `Option`.
-/

/-! ### Primitive decoders (src/unpack.rs) -/

/-- Byte order selector, from `src/unpack.rs` (`enum Endian { LE, BE }`). -/
inductive Endian where
  | LE : Endian
  | BE : Endian
deriving DecidableEq, Repr

/-- Embedding of `unpack_u16` (src/unpack.rs lines 14-20): reads the first two bytes of
the slice via byteorder's `read_u16`; a slice shorter than two bytes makes
`read_u16` fail and the `.unwrap()` panic (modelled as `none`). -/
def unpack_u16 (bytes : List Nat) (byteorder : Endian) : Option Nat :=
  if bytes.length < 2 then none
  else some (match byteorder with
    | Endian.LE => bytes.getD 0 0 + 256 * bytes.getD 1 0
    | Endian.BE => bytes.getD 1 0 + 256 * bytes.getD 0 0)

/-- Embedding of `unpack_u32` (src/unpack.rs lines 22-28): first four bytes, or panic. -/
def unpack_u32 (bytes : List Nat) (byteorder : Endian) : Option Nat :=
  if bytes.length < 4 then none
  else some (match byteorder with
    | Endian.LE =>
        bytes.getD 0 0 + 256 * bytes.getD 1 0 + 256 ^ 2 * bytes.getD 2 0
          + 256 ^ 3 * bytes.getD 3 0
    | Endian.BE =>
        bytes.getD 3 0 + 256 * bytes.getD 2 0 + 256 ^ 2 * bytes.getD 1 0
          + 256 ^ 3 * bytes.getD 0 0)

/-- Embedding of `unpack_u64` (src/unpack.rs lines 30-36): first eight bytes, or panic. -/
def unpack_u64 (bytes : List Nat) (byteorder : Endian) : Option Nat :=
  if bytes.length < 8 then none
  else some (match byteorder with
    | Endian.LE =>
        bytes.getD 0 0 + 256 * bytes.getD 1 0 + 256 ^ 2 * bytes.getD 2 0
          + 256 ^ 3 * bytes.getD 3 0 + 256 ^ 4 * bytes.getD 4 0
          + 256 ^ 5 * bytes.getD 5 0 + 256 ^ 6 * bytes.getD 6 0
          + 256 ^ 7 * bytes.getD 7 0
    | Endian.BE =>
        bytes.getD 7 0 + 256 * bytes.getD 6 0 + 256 ^ 2 * bytes.getD 5 0
          + 256 ^ 3 * bytes.getD 4 0 + 256 ^ 4 * bytes.getD 3 0
          + 256 ^ 5 * bytes.getD 2 0 + 256 ^ 6 * bytes.getD 1 0
          + 256 ^ 7 * bytes.getD 0 0)

/-- Little-endian value of a byte list (spec reading of §4.1: the integer
formed from the bytes, least significant first). -/
def leVal (l : List Nat) : Nat :=
  l.foldr (fun b acc => b + 256 * acc) 0

/-- Big-endian value of a byte list (most significant byte first). -/
def beVal (l : List Nat) : Nat :=
  l.foldl (fun acc b => acc * 256 + b) 0

/-- Value of a byte list in the requested endianness (spec side of C10). -/
def endianVal (byteorder : Endian) (l : List Nat) : Nat :=
  match byteorder with
  | Endian.LE => leVal l
  | Endian.BE => beVal l

/-- Model of `std::char::decode_utf16` followed by `collect::<Result<String,_>>`:
pairs of code units become scalar values; any unpaired surrogate makes the
whole decode fail (`none`).  Output is the list of Unicode scalar values. -/
def decode_utf16 : List Nat → Option (List Nat)
  | [] => some []
  | u :: rest =>
    if u < 0xD800 ∨ 0xE000 ≤ u then
      (decode_utf16 rest).map (fun t => u :: t)
    else if u ≤ 0xDBFF then
      match rest with
      | [] => none
      | v :: rest' =>
        if 0xDC00 ≤ v ∧ v ≤ 0xDFFF then
          (decode_utf16 rest').map
            (fun t => (0x10000 + (u - 0xD800) * 0x400 + (v - 0xDC00)) :: t)
        else none
    else none

/-- The code-unit iterator built inside `utf16_le_string`
(src/unpack.rs lines 41-43): `idx = slice.len() / 2` code units, the i-th
from bytes `2i` (low) and `2i+1` (high). -/
def utf16CodeUnits (slice : List Nat) : List Nat :=
  (List.range (slice.length / 2)).map
    (fun i => slice.getD (2 * i) 0 + 256 * slice.getD (2 * i + 1) 0)

/-- Embedding of `utf16_le_string` (src/unpack.rs lines 40-45): decode the code units of
the slice as UTF-16, `None` on any unpaired surrogate. -/
def utf16_le_string (slice : List Nat) : Option (List Nat) :=
  decode_utf16 (utf16CodeUnits slice)

/-- Well-formedness of a UTF-16 code-unit sequence: every high surrogate is
followed by a low surrogate and no low surrogate stands alone (spec side of
C5's failure condition). -/
def wellFormedUtf16 : List Nat → Bool
  | [] => true
  | u :: rest =>
    if u < 0xD800 ∨ 0xE000 ≤ u then wellFormedUtf16 rest
    else if u ≤ 0xDBFF then
      match rest with
      | [] => false
      | v :: rest' => (decide (0xDC00 ≤ v ∧ v ≤ 0xDFFF)) && wellFormedUtf16 rest'
    else false

/-! ### Record-offset builder data model (src/mdict/mdx.rs, src/mdict/recordblock.rs) -/

/-- Embedding of `Entry` (declared in src/mdict/keyblock.rs, used by mdx.rs): a headword
together with its offset into the virtual decompressed record stream. -/
structure Entry where
  text : String
  record_start_in_de_buf : Nat
deriving DecidableEq, Repr

/-- Embedding of `RecordBlockSize` (src/mdict/recordblock.rs lines 18-22). -/
structure RecordBlockSize where
  csize : Nat
  dsize : Nat
deriving DecidableEq, Repr

/-- Embedding of `RecordOffset` (src/mdict/mdx.rs lines 23-34). -/
structure RecordOffset where
  text : String
  block_start_in_buf : Nat
  block_csize : Nat
  block_dsize : Nat
  record_start_in_de_block : Nat
  record_end_in_de_block : Nat
deriving DecidableEq, Repr

/-- The inner `while` loop of `records_offset` (src/mdict/mdx.rs lines
128-156) for one block: starting at entry index `i`, drain entries whose
`record_start_in_de_buf` is below `dsum + bl.dsize` (`dsum`, `csum` are the
running sums `pre_blocks_dsize_sum`, `pre_blocks_csize_sum`).  Returns the
pushed `RecordOffset`s and the index after the loop.  Subtractions are on
`usize`; in the source an underflow would panic, here `Nat` subtraction
truncates (no claim depends on the truncated values). -/
def drainLoop (entries : List Entry) (bl : RecordBlockSize) (dsum csum : Nat)
    (i : Nat) : List RecordOffset × Nat :=
  if h : i < entries.length then
    if entries[i].record_start_in_de_buf ≥ dsum + bl.dsize then ([], i)
    else
      let record_end_in_de_block :=
        if h2 : i < entries.length - 1 then
          entries[i + 1].record_start_in_de_buf - dsum
        else bl.dsize
      let ro : RecordOffset :=
        { text := entries[i].text
          block_start_in_buf := csum
          block_csize := bl.csize
          block_dsize := bl.dsize
          record_start_in_de_block := entries[i].record_start_in_de_buf - dsum
          record_end_in_de_block := record_end_in_de_block }
      let rec_rest := drainLoop entries bl dsum csum (i + 1)
      (ro :: rec_rest.1, rec_rest.2)
  else ([], i)
termination_by entries.length - i

/-- The outer `for` loop of `records_offset` (src/mdict/mdx.rs lines
127-159): walk the blocks, drain entries into each, then advance the two
running sums. -/
def recordsOffsetGo (entries : List Entry) :
    List RecordBlockSize → Nat → Nat → Nat → List RecordOffset
  | [], _, _, _ => []
  | bl :: blocks, i, dsum, csum =>
    let step := drainLoop entries bl dsum csum i
    step.1 ++ recordsOffsetGo entries blocks step.2 (dsum + bl.dsize) (csum + bl.csize)

/-- Embedding of `records_offset` (src/mdict/mdx.rs lines 118-161). -/
def records_offset (entries : List Entry) (record_blocks_size : List RecordBlockSize) :
    List RecordOffset :=
  recordsOffsetGo entries record_blocks_size 0 0 0

/-- Drain step of the record-offset builder as worded in spec §4.5: walk the
remaining entries, drain leading ones whose start is strictly below
`Σd + B.dsize`; the drained entry's end is the next entry's start minus `Σd`
when a next entry exists, else `B.dsize`. -/
def drainSpec (dsum csum : Nat) (b : RecordBlockSize) :
    List Entry → List RecordOffset × List Entry
  | [] => ([], [])
  | e :: rest =>
    if e.record_start_in_de_buf < dsum + b.dsize then
      let rend :=
        match rest with
        | next :: _ => next.record_start_in_de_buf - dsum
        | [] => b.dsize
      (({ text := e.text
          block_start_in_buf := csum
          block_csize := b.csize
          block_dsize := b.dsize
          record_start_in_de_block := e.record_start_in_de_buf - dsum
          record_end_in_de_block := rend } : RecordOffset)
            :: (drainSpec dsum csum b rest).1,
        (drainSpec dsum csum b rest).2)
    else ([], e :: rest)

/-- Record-offset builder as worded in spec §4.5, block after block with the
two running sums. -/
def recordsOffsetSpecGo (dsum csum : Nat) :
    List RecordBlockSize → List Entry → List RecordOffset
  | [], _ => []
  | b :: bs, es =>
    (drainSpec dsum csum b es).1
      ++ recordsOffsetSpecGo (dsum + b.dsize) (csum + b.csize) bs (drainSpec dsum csum b es).2

/-- The record-offset builder described by spec §4.5 (spec side of C2). -/
def records_offset_spec (entries : List Entry) (blocks : List RecordBlockSize) :
    List RecordOffset :=
  recordsOffsetSpecGo 0 0 blocks entries

/-! ### Record-block decoder (src/mdict/recordblock.rs lines 65-108) -/

/-- Modelled from the spec: `fast_decrypt` lives in src/util.rs, which is not
among the provided sources.  Spec §4.6-4: the plaintext byte at index `i` is
`((c >> 4) | (c << 4)) XOR ((i & 0xFF) XOR key[i mod 16])`, all on bytes. -/
def fast_decrypt (encrypted key : List Nat) : List Nat :=
  (List.range encrypted.length).map (fun i =>
    let c := encrypted.getD i 0
    (((c >>> 4) ||| ((c <<< 4) % 256)) ^^^ ((i &&& 0xFF) ^^^ key.getD (i % 16) 0)) % 256)

/-- The decrypt step of `record_block_parse` (src/mdict/recordblock.rs
lines 80-89), with the Ripemd128-derived key passed in.  Method 0 is the
identity; method 1 the fast-XOR cipher; for method 2 the source constructs
a Salsa20 cipher from the key and an eight-zero-byte nonce but then returns
the still-empty `decrypt` vector, so the payload is dropped; any other
method panics. -/
def record_block_decrypt (key : List Nat) (enc_method : Nat)
    (encrypted : List Nat) : Option (List Nat) :=
  match enc_method with
  | 0 => some encrypted
  | 1 => some (fast_decrypt encrypted key)
  | 2 => some []
  | _ => none

/-- The decompress step of `record_block_parse` (src/mdict/recordblock.rs
lines 91-103).  LZO and zlib are external crates, passed in as functions
(`none` models their failure, which the source turns into a panic); an
unknown method panics. -/
def record_block_decompress (lzo : List Nat → Nat → Option (List Nat))
    (zlib : List Nat → Option (List Nat)) (dsize : Nat) (comp_method : Nat)
    (data : List Nat) : Option (List Nat) :=
  match comp_method with
  | 0 => some data
  | 1 => lzo data dsize
  | 2 => zlib data
  | _ => none

/-- Embedding of the record-block parsing function (src/mdict/recordblock.rs lines 65-108; its source name ends in parser): read the
little-endian `enc` word (4 bytes), the 4 checksum bytes and the
`size - 8`-byte payload, derive the key as `ripemd128` of the checksum
bytes, decrypt per `(enc >> 4) & 0xF` and decompress per `enc & 0xF`.
Returns the remaining input and the decompressed block.  `ripemd128` (an
external crate) is passed in as a function.  A `size` below 8 underflows
`size - 8` in the source (panic / nom failure), and shorter-than-`size`
input fails the `take` parsers; both are `none`. -/
def record_block_parse (ripemd128 : List Nat → List Nat)
    (lzo : List Nat → Nat → Option (List Nat))
    (zlib : List Nat → Option (List Nat)) (size dsize : Nat)
    (input : List Nat) : Option (List Nat × List Nat) :=
  if size < 8 ∨ input.length < size then none
  else
    let enc := leVal (input.take 4)
    let checksum := (input.drop 4).take 4
    let encrypted := (input.drop 8).take (size - 8)
    let enc_method := (enc >>> 4) &&& 0xf
    let comp_method := enc &&& 0xf
    let key := ripemd128 checksum
    match record_block_decrypt key enc_method encrypted with
    | none => none
    | some data =>
      match record_block_decompress lzo zlib dsize comp_method data with
      | none => none
      | some decompressed => some (input.drop size, decompressed)

/-! ### Lossy UTF-8 decoding (model of `String::from_utf8_lossy`) -/

/-- Whether a byte is a UTF-8 continuation byte (`0x80..0xBF`). -/
def isUtf8Cont (b : Nat) : Bool :=
  0x80 ≤ b && b ≤ 0xBF

/-- Admissible range of the first continuation byte after a given leading
byte, per the UTF-8 table (excludes overlong forms and surrogates). -/
def utf8SecondOk (b c : Nat) : Bool :=
  if b = 0xE0 then 0xA0 ≤ c && c ≤ 0xBF
  else if b = 0xED then 0x80 ≤ c && c ≤ 0x9F
  else if b = 0xF0 then 0x90 ≤ c && c ≤ 0xBF
  else if b = 0xF4 then 0x80 ≤ c && c ≤ 0x8F
  else isUtf8Cont c

/-- Worker for the lossy UTF-8 decoder, structurally recursive on a fuel
argument (every step consumes at least one byte, so fuel = input length is
always enough).  Valid UTF-8 sequences decode to their scalar value, each
maximal invalid subpart becomes one U+FFFD replacement. -/
def utf8LossyGo : Nat → List Nat → List Nat
  | _, [] => []
  | 0, _ :: _ => []
  | fuel + 1, b :: rest =>
    if b < 0x80 then b :: utf8LossyGo fuel rest
    else if 0xC2 ≤ b && b ≤ 0xDF then
      match rest with
      | [] => [0xFFFD]
      | c1 :: rest1 =>
        if isUtf8Cont c1 then
          ((b - 0xC0) * 0x40 + (c1 - 0x80)) :: utf8LossyGo fuel rest1
        else 0xFFFD :: utf8LossyGo fuel (c1 :: rest1)
    else if 0xE0 ≤ b && b ≤ 0xEF then
      match rest with
      | [] => [0xFFFD]
      | c1 :: rest1 =>
        if utf8SecondOk b c1 then
          match rest1 with
          | [] => [0xFFFD]
          | c2 :: rest2 =>
            if isUtf8Cont c2 then
              ((b - 0xE0) * 0x1000 + (c1 - 0x80) * 0x40 + (c2 - 0x80))
                :: utf8LossyGo fuel rest2
            else 0xFFFD :: utf8LossyGo fuel (c2 :: rest2)
        else 0xFFFD :: utf8LossyGo fuel (c1 :: rest1)
    else if 0xF0 ≤ b && b ≤ 0xF4 then
      match rest with
      | [] => [0xFFFD]
      | c1 :: rest1 =>
        if utf8SecondOk b c1 then
          match rest1 with
          | [] => [0xFFFD]
          | c2 :: rest2 =>
            if isUtf8Cont c2 then
              match rest2 with
              | [] => [0xFFFD]
              | c3 :: rest3 =>
                if isUtf8Cont c3 then
                  ((b - 0xF0) * 0x40000 + (c1 - 0x80) * 0x1000
                    + (c2 - 0x80) * 0x40 + (c3 - 0x80)) :: utf8LossyGo fuel rest3
                else 0xFFFD :: utf8LossyGo fuel (c3 :: rest3)
            else 0xFFFD :: utf8LossyGo fuel (c2 :: rest2)
        else 0xFFFD :: utf8LossyGo fuel (c1 :: rest1)
    else 0xFFFD :: utf8LossyGo fuel rest

/-- Model of Rust's `String::from_utf8_lossy`.  Output is the list of
Unicode scalar values. -/
def utf8LossyDecode (l : List Nat) : List Nat :=
  utf8LossyGo l.length l

/-! ### Mdx facade (src/mdict/mdx.rs lines 54-115) -/

/-- Embedding of `Mdx` (src/mdict/mdx.rs lines 54-60). -/
structure Mdx where
  records_offset : List RecordOffset
  record_block_buf : List Nat
  encoding : String
  encrypted : String
deriving DecidableEq, Repr

/-- Embedding of `Record` (src/mdict/mdx.rs lines 37-41); the definition string is
modelled as its list of Unicode scalar values. -/
structure Record where
  text : String
  definition : List Nat
deriving DecidableEq, Repr

/-- Embedding of `Mdx::find_definition` (src/mdict/mdx.rs lines 101-114): slice the
retained buffer at `block_start_in_buf`, run `record_block_parse`, slice
the decompressed block at
`[record_start_in_de_block, record_end_in_de_block)` and decode lossily as
UTF-8.  Out-of-range slicing panics in Rust (`none` here); the parser's
`.unwrap()` likewise. -/
def find_definition (ripemd128 : List Nat → List Nat)
    (lzo : List Nat → Nat → Option (List Nat))
    (zlib : List Nat → Option (List Nat)) (m : Mdx) (rs : RecordOffset) :
    Option (List Nat) :=
  if rs.block_start_in_buf > m.record_block_buf.length then none
  else
    let block_buf := m.record_block_buf.drop rs.block_start_in_buf
    match record_block_parse ripemd128 lzo zlib rs.block_csize rs.block_dsize block_buf with
    | none => none
    | some (_, block_decompressed) =>
      if rs.record_start_in_de_block ≤ rs.record_end_in_de_block ∧
          rs.record_end_in_de_block ≤ block_decompressed.length then
        some (utf8LossyDecode ((block_decompressed.drop rs.record_start_in_de_block).take
          (rs.record_end_in_de_block - rs.record_start_in_de_block)))
      else none

/-- Embedding of `Mdx::items` (src/mdict/mdx.rs lines 91-99): map every `RecordOffset`
to a `Record` whose definition comes from `find_definition`.  A panic in
any decode aborts the whole iteration (`none`). -/
def items (ripemd128 : List Nat → List Nat)
    (lzo : List Nat → Nat → Option (List Nat))
    (zlib : List Nat → Option (List Nat)) (m : Mdx) : Option (List Record) :=
  m.records_offset.mapM (fun rs =>
    (find_definition ripemd128 lzo zlib m rs).map
      (fun d => { text := rs.text, definition := d }))

/-! ### Query front end (src/query/mod.rs lines 6-23) -/

/-- Embedding of `query` (src/query/mod.rs lines 6-23): walk the configured databases in
order; in each, `select * from MDX_INDEX WHERE text = :word limit 1` and
return column 1 (the definition) of the row if present, else move on; after
all databases return the literal `"not found"`.  Each database is modelled
as its list of `(text, definition)` rows; `text` is the primary key, so at
most one row matches and the SQL lookup is the first matching row. -/
def query (dbs : List (List (String × String))) (word : String) : String :=
  match dbs with
  | [] => "not found"
  | db :: rest =>
    match db.find? (fun row => row.1 == word) with
    | some row => row.2
    | none => query rest word

/-! ### Derived definitions used by the theorems -/

/-- Total decompressed size of a list of record blocks. -/
def sumDsize (blocks : List RecordBlockSize) : Nat :=
  (blocks.map RecordBlockSize.dsize).sum

/-- Adjacency relation asserted by spec invariant I3: two consecutive
offsets in the table either lie in the same block, and then the first ends
where the second starts, or lie in different blocks, and then the first
ends at its block's decompressed size. -/
def offsetAdjacent (a b : RecordOffset) : Prop :=
  (a.block_start_in_buf = b.block_start_in_buf →
    a.record_end_in_de_block = b.record_start_in_de_block) ∧
  (a.block_start_in_buf ≠ b.block_start_in_buf →
    a.record_end_in_de_block = a.block_dsize)

/-- Cumulative one-past-end boundaries of the decompressed spans of a list
of record blocks, starting from a given running sum. -/
def boundaries (dsum : Nat) : List RecordBlockSize → List Nat
  | [] => []
  | b :: bs => (dsum + b.dsize) :: boundaries (dsum + b.dsize) bs

/-- Constant stand-in for the external Ripemd128 hash in concrete runs. -/
def hashConst : List Nat → List Nat := fun _ => List.replicate 16 0

/-- Stand-in for the external LZO decompressor in concrete runs. -/
def lzoNone : List Nat → Nat → Option (List Nat) := fun _ _ => none

/-- Stand-in for the external zlib decompressor in concrete runs. -/
def zlibNone : List Nat → Option (List Nat) := fun _ => none

/-- Concrete one-record Mdx (one stored block: header `enc = 0`,
checksum `[0,0,0,0]`, payload the two bytes "ab"). -/
def mdxSample : Mdx :=
  { records_offset := [⟨"a", 0, 10, 2, 0, 2⟩]
    record_block_buf := [0, 0, 0, 0, 0, 0, 0, 0, 97, 98]
    encoding := "UTF-8"
    encrypted := "" }

/-- Concrete Mdx whose header declares UTF-16 but whose stored definition
payload is the UTF-16LE bytes of "a" (a NUL-terminated pair). -/
def mdxUtf16Sample : Mdx :=
  { records_offset := [⟨"a", 0, 10, 2, 0, 2⟩]
    record_block_buf := [0, 0, 0, 0, 0, 0, 0, 0, 97, 0]
    encoding := "UTF-16"
    encrypted := "" }

/-! ### Helper lemmas -/

theorem decode_utf16_cons (u : Nat) (rest : List Nat) :
    decode_utf16 (u :: rest) =
      if u < 0xD800 ∨ 0xE000 ≤ u then
        (decode_utf16 rest).map (fun t => u :: t)
      else if u ≤ 0xDBFF then
        match rest with
        | [] => none
        | v :: rest' =>
          if 0xDC00 ≤ v ∧ v ≤ 0xDFFF then
            (decode_utf16 rest').map
              (fun t => (0x10000 + (u - 0xD800) * 0x400 + (v - 0xDC00)) :: t)
          else none
      else none := by cases rest <;> rfl

theorem wellFormedUtf16_cons (u : Nat) (rest : List Nat) :
    wellFormedUtf16 (u :: rest) =
      if u < 0xD800 ∨ 0xE000 ≤ u then wellFormedUtf16 rest
      else if u ≤ 0xDBFF then
        match rest with
        | [] => false
        | v :: rest' => (decide (0xDC00 ≤ v ∧ v ≤ 0xDFFF)) && wellFormedUtf16 rest'
      else false := by cases rest <;> rfl

theorem decode_utf16_isSome : ∀ us : List Nat, (decode_utf16 us).isSome = wellFormedUtf16 us
  | [] => rfl
  | u :: rest => by
    by_cases h1 : u < 0xD800 ∨ 0xE000 ≤ u
    · have ih := decode_utf16_isSome rest
      simp [decode_utf16_cons, wellFormedUtf16_cons, h1, ih]
    · by_cases h2 : u ≤ 0xDBFF
      · cases rest with
        | nil => simp [decode_utf16_cons, wellFormedUtf16_cons, h1, h2]
        | cons v rest' =>
          by_cases h3 : 0xDC00 ≤ v ∧ v ≤ 0xDFFF
          · have ih := decode_utf16_isSome rest'
            simp [decode_utf16_cons, wellFormedUtf16_cons, h1, h2, h3, ih]
          · simp [decode_utf16_cons, wellFormedUtf16_cons, h1, h2, h3]
      · simp [decode_utf16_cons, wellFormedUtf16_cons, h1, h2]

theorem getD_take_of_lt (l : List Nat) (k j : Nat) (h : j < k) :
    (l.take k).getD j 0 = l.getD j 0 := by
  rw [List.getD_eq_getElem?_getD, List.getD_eq_getElem?_getD, List.getElem?_take]
  simp [h]

theorem utf16CodeUnits_take (slice : List Nat) :
    utf16CodeUnits (slice.take (2 * (slice.length / 2))) = utf16CodeUnits slice := by
  unfold utf16CodeUnits
  rw [List.length_take]
  have hmin : min (2 * (slice.length / 2)) slice.length = 2 * (slice.length / 2) := by omega
  rw [hmin]
  have hdiv : 2 * (slice.length / 2) / 2 = slice.length / 2 := by omega
  rw [hdiv]
  apply List.map_congr_left
  intro i hi
  simp only [List.mem_range] at hi
  rw [getD_take_of_lt _ _ _ (by omega), getD_take_of_lt _ _ _ (by omega)]

theorem query_append_of_no_match (word : String) :
    ∀ (pre rest : List (List (String × String))),
      (∀ d ∈ pre, ∀ row ∈ d, row.1 ≠ word) →
      query (pre ++ rest) word = query rest word
  | [], rest, _ => rfl
  | d :: pre, rest, h => by
    have hfind : d.find? (fun row => row.1 == word) = none := by
      rw [List.find?_eq_none]
      intro x hx
      simpa using h d (by simp) x hx
    rw [List.cons_append]
    show (match d.find? (fun row => row.1 == word) with
      | some row => row.2
      | none => query (pre ++ rest) word) = query rest word
    rw [hfind]
    exact query_append_of_no_match word pre rest (fun d' hd' => h d' (by simp [hd']))

theorem drainSpec_cons_of_ge (dsum csum : Nat) (b : RecordBlockSize) (e : Entry)
    (rest : List Entry) (h : ¬ e.record_start_in_de_buf < dsum + b.dsize) :
    drainSpec dsum csum b (e :: rest) = ([], e :: rest) := by
  cases rest <;> simp [drainSpec, h]

theorem drainSpec_single_of_lt (dsum csum : Nat) (b : RecordBlockSize) (e : Entry)
    (h : e.record_start_in_de_buf < dsum + b.dsize) :
    drainSpec dsum csum b [e]
      = ([{ text := e.text, block_start_in_buf := csum, block_csize := b.csize,
            block_dsize := b.dsize,
            record_start_in_de_block := e.record_start_in_de_buf - dsum,
            record_end_in_de_block := b.dsize }], []) := by
  simp [drainSpec, h]

theorem drainSpec_cons_cons_of_lt (dsum csum : Nat) (b : RecordBlockSize) (e f : Entry)
    (rest : List Entry) (h : e.record_start_in_de_buf < dsum + b.dsize) :
    drainSpec dsum csum b (e :: f :: rest)
      = ({ text := e.text, block_start_in_buf := csum, block_csize := b.csize,
           block_dsize := b.dsize,
           record_start_in_de_block := e.record_start_in_de_buf - dsum,
           record_end_in_de_block := f.record_start_in_de_buf - dsum }
            :: (drainSpec dsum csum b (f :: rest)).1,
         (drainSpec dsum csum b (f :: rest)).2) := by
  simp [drainSpec, h]

theorem drainSpec_length (dsum csum : Nat) (b : RecordBlockSize) :
    ∀ es : List Entry,
      (drainSpec dsum csum b es).1.length + (drainSpec dsum csum b es).2.length = es.length
  | [] => rfl
  | e :: rest => by
    by_cases h : e.record_start_in_de_buf < dsum + b.dsize <;>
      simp [drainSpec, h]
    · have := drainSpec_length dsum csum b rest
      omega

theorem drainSpec_snd_eq_drop (dsum csum : Nat) (b : RecordBlockSize) :
    ∀ es : List Entry,
      (drainSpec dsum csum b es).2 = es.drop (drainSpec dsum csum b es).1.length
  | [] => rfl
  | e :: rest => by
    by_cases h : e.record_start_in_de_buf < dsum + b.dsize <;>
      simp [drainSpec, h]
    exact drainSpec_snd_eq_drop dsum csum b rest

theorem drainLoop_eq (es : List Entry) (bl : RecordBlockSize) (dsum csum : Nat) :
    ∀ i, i ≤ es.length →
      drainLoop es bl dsum csum i
        = ((drainSpec dsum csum bl (es.drop i)).1,
           i + (drainSpec dsum csum bl (es.drop i)).1.length) := by
  have main : ∀ n i, es.length - i ≤ n → i ≤ es.length →
      drainLoop es bl dsum csum i
        = ((drainSpec dsum csum bl (es.drop i)).1,
           i + (drainSpec dsum csum bl (es.drop i)).1.length) := by
    intro n
    induction n with
    | zero =>
      intro i hn hi
      have hieq : i = es.length := by omega
      rw [drainLoop]
      simp [hieq, drainSpec]
    | succ n ih =>
      intro i hn hi
      rw [drainLoop]
      by_cases h : i < es.length
      · simp only [h, dite_true]
        have hdrop : es.drop i = es[i] :: es.drop (i + 1) := List.drop_eq_getElem_cons h
        rw [hdrop]
        by_cases hc : es[i].record_start_in_de_buf < dsum + bl.dsize
        · have hc2 : ¬ es[i].record_start_in_de_buf ≥ dsum + bl.dsize := by omega
          simp only [hc2, ite_false]
          rw [ih (i + 1) (by omega) (by omega)]
          by_cases h2 : i < es.length - 1
          · have h3 : i + 1 < es.length := by omega
            have hdrop2 : es.drop (i + 1) = es[i + 1] :: es.drop (i + 2) :=
              List.drop_eq_getElem_cons h3
            rw [hdrop2, drainSpec_cons_cons_of_lt dsum csum bl _ _ _ hc]
            simp only [h2, dite_true, List.length_cons]
            refine Prod.ext rfl ?_
            simp only []
            omega
          · have h3 : es.drop (i + 1) = [] := List.drop_eq_nil_of_le (by omega)
            rw [h3, drainSpec_single_of_lt dsum csum bl _ hc]
            simp only [h2, dite_false, drainSpec, List.length_cons, List.length_nil]
        · have hc2 : es[i].record_start_in_de_buf ≥ dsum + bl.dsize := by omega
          rw [drainSpec_cons_of_ge dsum csum bl _ _ hc]
          simp [hc2]
      · have h3 : es.drop i = [] := List.drop_eq_nil_of_le (by omega)
        simp [h, h3, drainSpec]
  intro i hi
  exact main (es.length - i) i le_rfl hi

theorem recordsOffsetGo_eq (es : List Entry) :
    ∀ (bs : List RecordBlockSize) (i dsum csum : Nat), i ≤ es.length →
      recordsOffsetGo es bs i dsum csum = recordsOffsetSpecGo dsum csum bs (es.drop i)
  | [], _, _, _, _ => rfl
  | bl :: bs, i, dsum, csum, hi => by
    have hstep := drainLoop_eq es bl dsum csum i hi
    have hlen := drainSpec_length dsum csum bl (es.drop i)
    have hlen2 : (es.drop i).length = es.length - i := List.length_drop i es
    show (drainLoop es bl dsum csum i).1
          ++ recordsOffsetGo es bs (drainLoop es bl dsum csum i).2 (dsum + bl.dsize) (csum + bl.csize)
        = (drainSpec dsum csum bl (es.drop i)).1
          ++ recordsOffsetSpecGo (dsum + bl.dsize) (csum + bl.csize) bs (drainSpec dsum csum bl (es.drop i)).2
    rw [hstep]
    congr 1
    rw [recordsOffsetGo_eq es bs (i + (drainSpec dsum csum bl (es.drop i)).1.length)
      (dsum + bl.dsize) (csum + bl.csize) (by omega)]
    rw [drainSpec_snd_eq_drop, List.drop_drop]

theorem records_offset_eq_spec (E : List Entry) (B : List RecordBlockSize) :
    records_offset E B = records_offset_spec E B := by
  unfold records_offset records_offset_spec
  rw [recordsOffsetGo_eq E B 0 0 0 (by omega), List.drop_zero]

theorem takeWhile_pred_congr {α : Type} (p q : α → Bool) (h : ∀ x, p x = q x) :
    ∀ l : List α, l.takeWhile p = l.takeWhile q := by
  intro l
  induction l with
  | nil => rfl
  | cons a t ih => simp [List.takeWhile_cons, h, ih]

theorem takeWhile_length_mono_split {α : Type} (p q : α → Bool)
    (hpq : ∀ x, p x = true → q x = true) :
    ∀ l : List α,
      (l.takeWhile q).length
        = (l.takeWhile p).length + ((l.dropWhile p).takeWhile q).length
  | [] => rfl
  | x :: t => by
    by_cases hx : p x = true
    · have hq := hpq x hx
      simp [List.takeWhile_cons, List.dropWhile_cons, hx, hq,
        takeWhile_length_mono_split p q hpq t]
      omega
    · simp [List.takeWhile_cons, List.dropWhile_cons, hx]

theorem head_dropWhile_not {α : Type} (p : α → Bool) :
    ∀ l : List α, ∀ x ∈ (l.dropWhile p).head?, p x = false
  | [] => by simp
  | a :: t => by
    by_cases h : p a = true
    · simp only [List.dropWhile_cons, h, ite_true]
      exact head_dropWhile_not p t
    · simp only [List.dropWhile_cons, h, ite_false]
      intro x hx
      have hxa : a = x := by simpa using hx
      subst hxa
      simpa using h

theorem drainSpec_fst_length_takeWhile (dsum csum : Nat) (b : RecordBlockSize) :
    ∀ es : List Entry,
      (drainSpec dsum csum b es).1.length
        = (es.takeWhile (fun e => decide (e.record_start_in_de_buf < dsum + b.dsize))).length
  | [] => rfl
  | e :: rest => by
    by_cases h : e.record_start_in_de_buf < dsum + b.dsize <;>
      simp [drainSpec, List.takeWhile_cons, h]
    exact drainSpec_fst_length_takeWhile dsum csum b rest

theorem drainSpec_snd_eq_dropWhile (dsum csum : Nat) (b : RecordBlockSize) :
    ∀ es : List Entry,
      (drainSpec dsum csum b es).2
        = es.dropWhile (fun e => decide (e.record_start_in_de_buf < dsum + b.dsize))
  | [] => rfl
  | e :: rest => by
    by_cases h : e.record_start_in_de_buf < dsum + b.dsize <;>
      simp [drainSpec, List.dropWhile_cons, h]
    exact drainSpec_snd_eq_dropWhile dsum csum b rest

theorem specGo_length :
    ∀ (bs : List RecordBlockSize) (es : List Entry) (dsum csum : Nat),
      (∀ e ∈ es.head?, dsum ≤ e.record_start_in_de_buf) →
      (recordsOffsetSpecGo dsum csum bs es).length
        = (es.takeWhile
            (fun e => decide (e.record_start_in_de_buf < dsum + sumDsize bs))).length
  | [], es, dsum, csum, hhead => by
    cases es with
    | nil => simp [recordsOffsetSpecGo]
    | cons e t =>
      have h1 : dsum ≤ e.record_start_in_de_buf := hhead e (by simp)
      have h2 : ¬ e.record_start_in_de_buf < dsum + sumDsize [] := by
        simp [sumDsize]
        omega
      simp [recordsOffsetSpecGo, List.takeWhile_cons, h2]
  | b :: bs, es, dsum, csum, hhead => by
    have hd1 := drainSpec_fst_length_takeWhile dsum csum b es
    have hd2 := drainSpec_snd_eq_dropWhile dsum csum b es
    have hhead' : ∀ e ∈ (drainSpec dsum csum b es).2.head?,
        dsum + b.dsize ≤ e.record_start_in_de_buf := by
      intro e he
      rw [hd2] at he
      have := head_dropWhile_not
        (fun e => decide (e.record_start_in_de_buf < dsum + b.dsize)) es e he
      simp at this
      omega
    have hrec := specGo_length bs (drainSpec dsum csum b es).2 (dsum + b.dsize)
      (csum + b.csize) hhead'
    show ((drainSpec dsum csum b es).1
        ++ recordsOffsetSpecGo (dsum + b.dsize) (csum + b.csize) bs
            (drainSpec dsum csum b es).2).length = _
    rw [List.length_append, hd1, hrec, hd2]
    have hsplit := takeWhile_length_mono_split
      (fun e => decide (e.record_start_in_de_buf < dsum + b.dsize))
      (fun e => decide (e.record_start_in_de_buf < dsum + sumDsize (b :: bs)))
      (by
        intro x hx
        simp at hx ⊢
        simp [sumDsize] at *
        omega) es
    rw [hsplit]
    congr 2
    apply takeWhile_pred_congr
    intro x
    simp [sumDsize]
    omega
theorem drainSpec_fst_head_of_lt (dsum csum : Nat) (bl : RecordBlockSize) (f : Entry)
    (rest2 : List Entry) (hf : f.record_start_in_de_buf < dsum + bl.dsize) :
    ∃ tail rend,
      (drainSpec dsum csum bl (f :: rest2)).1
        = { text := f.text, block_start_in_buf := csum, block_csize := bl.csize,
            block_dsize := bl.dsize,
            record_start_in_de_block := f.record_start_in_de_buf - dsum,
            record_end_in_de_block := rend } :: tail := by
  cases rest2 <;> simp [drainSpec, hf]

theorem drainSpec_block_props (dsum csum : Nat) (bl : RecordBlockSize) :
    ∀ es : List Entry,
      es.Pairwise (fun a b => a.record_start_in_de_buf < b.record_start_in_de_buf) →
      (∀ e ∈ es, dsum ≤ e.record_start_in_de_buf) →
      es.Chain' (fun a b =>
        a.record_start_in_de_buf < dsum + bl.dsize →
        dsum + bl.dsize ≤ b.record_start_in_de_buf →
        b.record_start_in_de_buf = dsum + bl.dsize) →
      (∀ ro ∈ (drainSpec dsum csum bl es).1,
          ro.block_start_in_buf = csum ∧ ro.block_dsize = bl.dsize ∧
          ro.record_start_in_de_block < ro.record_end_in_de_block ∧
          ro.record_end_in_de_block ≤ bl.dsize) ∧
      (drainSpec dsum csum bl es).1.Chain' offsetAdjacent ∧
      (∀ x ∈ (drainSpec dsum csum bl es).1.getLast?,
          x.record_end_in_de_block = bl.dsize) ∧
      (∀ e ∈ (drainSpec dsum csum bl es).2,
          dsum + bl.dsize ≤ e.record_start_in_de_buf)
  | [] => by
    intro _ _ _
    simp [drainSpec]
  | e :: rest => by
    intro HP Hge HB
    by_cases hc : e.record_start_in_de_buf < dsum + bl.dsize
    · have hge_e : dsum ≤ e.record_start_in_de_buf := Hge e (by simp)
      cases rest with
      | nil =>
        rw [drainSpec_single_of_lt dsum csum bl e hc]
        refine ⟨?_, by simp, ?_, by simp⟩
        · intro ro hro
          have hro2 := List.mem_singleton.mp hro
          subst hro2
          refine ⟨rfl, rfl, ?_, le_rfl⟩
          simp only []
          omega
        · intro x hx
          rw [List.getLast?_singleton] at hx
          have hx2 : _ = x := Option.some_injective _ (Option.mem_def.mp hx)
          subst hx2
          rfl
      | cons f rest2 =>
        have hef : e.record_start_in_de_buf < f.record_start_in_de_buf :=
          (List.pairwise_cons.mp HP).1 f (by simp)
        have HP' : (f :: rest2).Pairwise
            (fun a b => a.record_start_in_de_buf < b.record_start_in_de_buf) :=
          (List.pairwise_cons.mp HP).2
        have Hge' : ∀ x ∈ f :: rest2, dsum ≤ x.record_start_in_de_buf :=
          fun x hx => Hge x (by simp [hx])
        have HB' := HB.tail
        have IH := drainSpec_block_props dsum csum bl (f :: rest2) HP' Hge' HB'
        obtain ⟨IH1, IH2, IH3, IH4⟩ := IH
        rw [drainSpec_cons_cons_of_lt dsum csum bl e f rest2 hc]
        by_cases hf : f.record_start_in_de_buf < dsum + bl.dsize
        · refine ⟨?_, ?_, ?_, IH4⟩
          · intro ro hro
            rcases List.mem_cons.mp hro with h1 | h1
            · subst h1
              refine ⟨rfl, rfl, ?_, ?_⟩ <;> simp only [] <;> omega
            · exact IH1 ro h1
          · obtain ⟨tail, rend, htl⟩ := drainSpec_fst_head_of_lt dsum csum bl f rest2 hf
            rw [List.chain'_cons']
            refine ⟨?_, IH2⟩
            intro y hy
            rw [htl] at hy
            simp only [List.head?_cons, Option.mem_def, Option.some.injEq] at hy
            subst hy
            constructor
            · intro _
              rfl
            · intro hne
              exact absurd rfl hne
          · obtain ⟨tail, rend, htl⟩ := drainSpec_fst_head_of_lt dsum csum bl f rest2 hf
            rw [htl, List.getLast?_cons_cons, ← htl]
            exact IH3
        · have hfb : f.record_start_in_de_buf = dsum + bl.dsize := by
            have hrel := (List.chain'_cons.mp HB).1
            exact hrel hc (by omega)
          rw [drainSpec_cons_of_ge dsum csum bl f rest2 hf]
          refine ⟨?_, by simp, ?_, ?_⟩
          · intro ro hro
            have hro2 := List.mem_singleton.mp hro
            subst hro2
            refine ⟨rfl, rfl, ?_, ?_⟩ <;> simp only [] <;> omega
          · intro x hx
            rw [List.getLast?_singleton] at hx
            have hx2 : _ = x := Option.some_injective _ (Option.mem_def.mp hx)
            subst hx2
            simp only []
            omega
          · intro x hx
            rcases List.mem_cons.mp hx with h1 | h1
            · subst h1
              omega
            · have := (List.pairwise_cons.mp HP').1 x h1
              omega
    · rw [drainSpec_cons_of_ge dsum csum bl e rest hc]
      refine ⟨by simp, by simp, by simp, ?_⟩
      intro x hx
      rcases List.mem_cons.mp hx with h1 | h1
      · subst h1
        omega
      · have := (List.pairwise_cons.mp HP).1 x h1
        omega

theorem specGo_offset_invariants :
    ∀ (bs : List RecordBlockSize) (es : List Entry) (dsum csum : Nat),
      es.Pairwise (fun a b => a.record_start_in_de_buf < b.record_start_in_de_buf) →
      (∀ e ∈ es, dsum ≤ e.record_start_in_de_buf) →
      es.Chain' (fun a b => ∀ d ∈ boundaries dsum bs,
        a.record_start_in_de_buf < d → d ≤ b.record_start_in_de_buf →
        b.record_start_in_de_buf = d) →
      (∀ b ∈ bs, 0 < b.csize) →
      (∀ ro ∈ recordsOffsetSpecGo dsum csum bs es,
          csum ≤ ro.block_start_in_buf ∧
          ro.record_start_in_de_block < ro.record_end_in_de_block ∧
          ro.record_end_in_de_block ≤ ro.block_dsize) ∧
      (recordsOffsetSpecGo dsum csum bs es).Chain' offsetAdjacent ∧
      (∀ x ∈ (recordsOffsetSpecGo dsum csum bs es).getLast?,
          x.record_end_in_de_block = x.block_dsize)
  | [], es, dsum, csum, _, _, _, _ => by
    simp [recordsOffsetSpecGo]
  | b :: bs, es, dsum, csum, HP, Hge, HB, H3 => by
    have HBloc : es.Chain' (fun a c =>
        a.record_start_in_de_buf < dsum + b.dsize →
        dsum + b.dsize ≤ c.record_start_in_de_buf →
        c.record_start_in_de_buf = dsum + b.dsize) := by
      refine HB.imp ?_
      intro a c hac h1 h2
      exact hac (dsum + b.dsize) (by simp [boundaries]) h1 h2
    obtain ⟨D1, D2, D3, D4⟩ := drainSpec_block_props dsum csum b es HP Hge HBloc
    have hsndlen := drainSpec_snd_eq_drop dsum csum b es
    have HPrem : (drainSpec dsum csum b es).2.Pairwise
        (fun a c => a.record_start_in_de_buf < c.record_start_in_de_buf) := by
      rw [hsndlen]
      exact List.Pairwise.sublist (List.drop_sublist _ _) HP
    have HBrem : (drainSpec dsum csum b es).2.Chain' (fun a c =>
        ∀ d ∈ boundaries (dsum + b.dsize) bs,
        a.record_start_in_de_buf < d → d ≤ c.record_start_in_de_buf →
        c.record_start_in_de_buf = d) := by
      have hsuffix : (drainSpec dsum csum b es).2 <:+ es := by
        rw [hsndlen]
        exact List.drop_suffix _ _
      refine (HB.suffix hsuffix).imp ?_
      intro a c hac d hd h1 h2
      exact hac d (by simp [boundaries, hd]) h1 h2
    have H3' : ∀ x ∈ bs, 0 < x.csize := fun x hx => H3 x (by simp [hx])
    have IH := specGo_offset_invariants bs (drainSpec dsum csum b es).2
      (dsum + b.dsize) (csum + b.csize) HPrem D4 HBrem H3'
    obtain ⟨IH1, IH2, IH3⟩ := IH
    have hb3 : 0 < b.csize := H3 b (by simp)
    have hunfold : recordsOffsetSpecGo dsum csum (b :: bs) es
        = (drainSpec dsum csum b es).1
          ++ recordsOffsetSpecGo (dsum + b.dsize) (csum + b.csize) bs
              (drainSpec dsum csum b es).2 := rfl
    rw [hunfold]
    refine ⟨?_, ?_, ?_⟩
    · intro ro hro
      rcases List.mem_append.mp hro with h1 | h1
      · obtain ⟨hbsf, hbds, hlt, hle⟩ := D1 ro h1
        exact ⟨le_of_eq hbsf.symm, hlt, by rw [hbds]; exact hle⟩
      · obtain ⟨hge2, hlt, hle⟩ := IH1 ro h1
        exact ⟨by omega, hlt, hle⟩
    · rw [List.chain'_append]
      refine ⟨D2, IH2, ?_⟩
      intro x hx y hy
      have hx1 : x ∈ (drainSpec dsum csum b es).1 := List.mem_of_mem_getLast? hx
      have hy1 : y ∈ recordsOffsetSpecGo (dsum + b.dsize) (csum + b.csize) bs
          (drainSpec dsum csum b es).2 := List.mem_of_mem_head? hy
      obtain ⟨hxb, hxd, _, _⟩ := D1 x hx1
      obtain ⟨hyb, _, _⟩ := IH1 y hy1
      have hneq : x.block_start_in_buf ≠ y.block_start_in_buf := by omega
      refine ⟨fun heq => absurd heq hneq, fun _ => ?_⟩
      rw [D3 x hx, hxd]
    · by_cases hnil : recordsOffsetSpecGo (dsum + b.dsize) (csum + b.csize) bs
          (drainSpec dsum csum b es).2 = []
      · rw [hnil, List.append_nil]
        intro x hx
        have hx1 : x ∈ (drainSpec dsum csum b es).1 := List.mem_of_mem_getLast? hx
        obtain ⟨_, hxd, _, _⟩ := D1 x hx1
        rw [D3 x hx, hxd]
      · rw [List.getLast?_append_of_ne_nil _ hnil]
        exact IH3

theorem mapM_option_length_get {α β : Type} (f : α → Option β) :
    ∀ (l : List α) (out : List β), l.mapM f = some out →
      out.length = l.length ∧
      ∀ i (h : i < l.length) (h2 : i < out.length), f l[i] = some out[i]
  | [], out, h => by
    rw [← List.mapM'_eq_mapM] at h
    have hout : out = [] := by simpa [List.mapM'_nil] using h.symm
    subst hout
    exact ⟨rfl, fun i hi _ => by simp at hi⟩
  | a :: l, out, h => by
    rw [← List.mapM'_eq_mapM] at h
    rw [List.mapM'_cons] at h
    cases hfa : f a with
    | none => rw [hfa] at h; simp at h
    | some b =>
      rw [hfa] at h
      cases hml : l.mapM' f with
      | none => rw [hml] at h; simp at h
      | some bs =>
        rw [hml] at h
        have hout : out = b :: bs := by simpa using h.symm
        subst hout
        obtain ⟨hlen, hget⟩ := mapM_option_length_get f l bs
          ((List.mapM'_eq_mapM f l).symm.trans hml)
        refine ⟨by simp [hlen], ?_⟩
        intro i hi hi2
        cases i with
        | zero => simpa using hfa
        | succ j =>
          simpa using hget j (by simpa using hi) (by simpa using hi2)

/-! ### Claim theorems -/

/-- Claim C1 (code bug): for a record block declaring `enc_method = 2`, the
spec says the decrypt step returns the payload XORed with the Salsa20
keystream (so the plaintext has the payload's length), and spec §9 already
notes the source as an incomplete path; the decrypt step of the source
instead builds the cipher and returns the still-empty `decrypt` vector, so
on the one-byte payload `[0xAB]` it returns the empty list rather than a
one-byte plaintext. -/
theorem c1_salsa20_decrypt_drops_payload :
    record_block_decrypt (List.replicate 16 0) 2 [171] = some [] ∧
    ([] : List Nat).length ≠ ([171] : List Nat).length := by decide

/-- Claim C2: the record-offset builder of the source (`records_offset`,
an index-based loop) computes exactly the table described by spec §4.5
(running sums Σc/Σd, strict-`<` drain, `record_end` from the next entry's
start or the block's dsize for the globally last entry), here formalised as
the suffix-based `records_offset_spec`. -/
theorem c2_records_offset_matches_spec (entries : List Entry)
    (record_blocks_size : List RecordBlockSize) :
    records_offset entries record_blocks_size
      = records_offset_spec entries record_blocks_size :=
  records_offset_eq_spec entries record_blocks_size

/-- Claim C3: an entry whose `record_start_in_de_buf` equals the one-past-end
boundary `Σd + B.dsize` of the block currently being drained is never drained
into that block: the inner loop's final index never passes such an entry, so
the entry is left for a later block. -/
theorem c3_boundary_entry_goes_to_later_block (entries : List Entry)
    (bl : RecordBlockSize) (dsum csum i k : Nat) (hk : k < entries.length)
    (hik : i ≤ k)
    (hb : entries[k].record_start_in_de_buf = dsum + bl.dsize) :
    (drainLoop entries bl dsum csum i).2 ≤ k := by
  have main : ∀ n i, entries.length - i ≤ n → i ≤ k →
      (drainLoop entries bl dsum csum i).2 ≤ k := by
    intro n
    induction n with
    | zero =>
      intro i hn hik2
      rw [drainLoop]
      have h : ¬ i < entries.length := by omega
      simp [h, hik2]
    | succ n ih =>
      intro i hn hik2
      rw [drainLoop]
      by_cases h : i < entries.length
      · simp only [h, dite_true]
        by_cases hc : entries[i].record_start_in_de_buf ≥ dsum + bl.dsize
        · simp [hc, hik2]
        · have hik3 : i ≠ k := by
            intro heq
            subst heq
            omega
          simp only [hc, ite_false]
          exact ih (i + 1) (by omega) (by omega)
      · simp [h, hik2]
  exact main (entries.length - i) i le_rfl hik

/-- Witness for C3: with entries starting at 0 and 12 and a first block of
dsize 12, the first block's drain never consumes the entry at index 1, whose
start sits exactly on the boundary 0 + 12. -/
theorem c3_boundary_entry_goes_to_later_block_witness :
    (drainLoop [⟨"a", 0⟩, ⟨"b", 12⟩] ⟨20, 12⟩ 0 0 0).2 ≤ 1 :=
  c3_boundary_entry_goes_to_later_block [⟨"a", 0⟩, ⟨"b", 12⟩] ⟨20, 12⟩ 0 0 0 1
    (by decide) (by decide) (by decide)

/-- Claim C4: under the format invariants assumed by the spec — entries
strictly increasing in `record_start_in_de_buf` (I1), no adjacent pair of
entries straddling a block boundary without an entry starting exactly on it
(records tile the blocks, I2/P2), and positive compressed block sizes —
every produced offset satisfies `record_start_in_de_block <
record_end_in_de_block ≤ block_dsize`; consecutive offsets of one block
chain end-to-start; an offset that is last in its block (next offset in a
different block, or last overall) ends at its block's dsize. -/
theorem c4_record_offset_invariants (E : List Entry) (B : List RecordBlockSize)
    (H1 : E.Pairwise (fun a b => a.record_start_in_de_buf < b.record_start_in_de_buf))
    (H2 : E.Chain' (fun a b => ∀ d ∈ boundaries 0 B,
      a.record_start_in_de_buf < d → d ≤ b.record_start_in_de_buf →
      b.record_start_in_de_buf = d))
    (H3 : ∀ b ∈ B, 0 < b.csize) :
    (∀ ro ∈ records_offset E B,
        ro.record_start_in_de_block < ro.record_end_in_de_block ∧
        ro.record_end_in_de_block ≤ ro.block_dsize) ∧
    (records_offset E B).Chain' offsetAdjacent ∧
    (∀ x ∈ (records_offset E B).getLast?,
        x.record_end_in_de_block = x.block_dsize) := by
  rw [records_offset_eq_spec]
  unfold records_offset_spec
  have h := specGo_offset_invariants B E 0 0 H1 (by simp) H2 H3
  exact ⟨fun ro hro => (h.1 ro hro).2, h.2.1, h.2.2⟩

/-- Witness for C4 at the spec's end-to-end scenario 1: two entries at 0 and
6 in one block of dsize 12. -/
theorem c4_record_offset_invariants_witness :
    (∀ ro ∈ records_offset [⟨"a", 0⟩, ⟨"b", 6⟩] [⟨20, 12⟩],
        ro.record_start_in_de_block < ro.record_end_in_de_block ∧
        ro.record_end_in_de_block ≤ ro.block_dsize) ∧
    (records_offset [⟨"a", 0⟩, ⟨"b", 6⟩] [⟨20, 12⟩]).Chain' offsetAdjacent ∧
    (∀ x ∈ (records_offset [⟨"a", 0⟩, ⟨"b", 6⟩] [⟨20, 12⟩]).getLast?,
        x.record_end_in_de_block = x.block_dsize) :=
  c4_record_offset_invariants [⟨"a", 0⟩, ⟨"b", 6⟩] [⟨20, 12⟩] (by decide)
    (by
      rw [List.chain'_pair]
      intro d hd h1 h2
      simp [boundaries] at hd
      subst hd
      simp at h2)
    (by decide)

/-- Counterexample to C5 as stated: an odd-length slice does not make the
decoder fail; the trailing byte is silently ignored and the even prefix is
decoded. -/
theorem c5_odd_length_counterexample :
    ([97, 0, 255] : List Nat).length % 2 = 1 ∧
    utf16_le_string [97, 0, 255] = some [97] := by decide

/-- Claim C5 (amended): the decoder succeeds exactly when the code units
formed from the first `2 * (len / 2)` bytes are well-formed UTF-16 (no
unpaired surrogate) — so it does fail, without substitution, on any unpaired
surrogate — and a trailing odd byte is ignored rather than causing failure:
the result equals the decode of the even-length prefix. -/
theorem c5_amended_decode_behavior (slice : List Nat) :
    (utf16_le_string slice).isSome = wellFormedUtf16 (utf16CodeUnits slice) ∧
    utf16_le_string slice = utf16_le_string (slice.take (2 * (slice.length / 2))) := by
  constructor
  · exact decode_utf16_isSome _
  · unfold utf16_le_string
    rw [utf16CodeUnits_take]

/-- Counterexample to C6 as stated: the builder performs none of the claimed
fatal checks.  With one entry that no block covers it returns the empty
table (0 entries drained ≠ n = 1) instead of failing; with an entry list
that leaves a gap it returns an offset whose `record_end_in_de_block` = 5
exceeds its `block_dsize` = 3, again without any error. -/
theorem c6_no_failure_counterexample :
    records_offset [⟨"a", 100⟩] [⟨1, 10⟩] = [] ∧
    records_offset [⟨"a", 0⟩, ⟨"b", 5⟩] [⟨9, 3⟩] = [⟨"a", 0, 9, 3, 0, 5⟩] := by
  constructor <;> rw [records_offset_eq_spec] <;> decide

/-- Claim C6 (amended): the builder is total and silently truncates: its
output length is the length of the longest entry prefix whose starts lie
below the total decompressed size Σ dsize; entries past the first
uncovered one are dropped without any error, and no record-end or
negativity validation is performed. -/
theorem c6_amended_silent_drop (E : List Entry) (B : List RecordBlockSize) :
    (records_offset E B).length
      = (E.takeWhile (fun e => decide (e.record_start_in_de_buf < sumDsize B))).length := by
  rw [records_offset_eq_spec]
  unfold records_offset_spec
  have h := specGo_length B E 0 0 (by simp)
  simpa using h

/-- Counterexample to C7 as stated: the definition decode does not use the
encoding declared in `Header.encoding`.  On a block whose definition bytes
are the UTF-16LE encoding of "a", with the header declaring UTF-16, the
source decodes the two bytes as UTF-8 (yielding "a" followed by a NUL
scalar) rather than as UTF-16 (which yields just "a"). -/
theorem c7_encoding_ignored_counterexample :
    find_definition hashConst lzoNone zlibNone mdxUtf16Sample ⟨"a", 0, 10, 2, 0, 2⟩
      = some [97, 0] ∧
    mdxUtf16Sample.encoding = "UTF-16" ∧
    utf16_le_string [97, 0] = some [97] ∧
    some [97, 0] ≠ some ([97] : List Nat) := by decide

/-- Claim C7 (amended): `find_definition` slices the decompressed block at
`[record_start_in_de_block, record_end_in_de_block)` and decodes the bytes
lossily as UTF-8 (replacement characters, never an error), regardless of the
declared `Header.encoding` — the result is independent of the `encoding`
(and every other non-buffer) field of the `Mdx`. -/
theorem c7_amended_always_utf8_lossy (ripemd128 : List Nat → List Nat)
    (lzo : List Nat → Nat → Option (List Nat)) (zlib : List Nat → Option (List Nat))
    (buf : List Nat) (offsets1 offsets2 : List RecordOffset)
    (enc1 enc2 encr1 encr2 : String) (rs : RecordOffset) :
    find_definition ripemd128 lzo zlib ⟨offsets1, buf, enc1, encr1⟩ rs
      = find_definition ripemd128 lzo zlib ⟨offsets2, buf, enc2, encr2⟩ rs ∧
    (∀ rest dec,
      record_block_parse ripemd128 lzo zlib rs.block_csize rs.block_dsize
          (buf.drop rs.block_start_in_buf) = some (rest, dec) →
      rs.block_start_in_buf ≤ buf.length →
      rs.record_start_in_de_block ≤ rs.record_end_in_de_block →
      rs.record_end_in_de_block ≤ dec.length →
      find_definition ripemd128 lzo zlib ⟨offsets1, buf, enc1, encr1⟩ rs
        = some (utf8LossyDecode ((dec.drop rs.record_start_in_de_block).take
            (rs.record_end_in_de_block - rs.record_start_in_de_block)))) := by
  constructor
  · rfl
  · intro rest dec hparse hbs hse hed
    unfold find_definition
    rw [if_neg (by simp; omega)]
    simp only []
    rw [hparse]
    simp [hse, hed]

/-- Witness for C7 (amended) on a concrete uncompressed unencrypted block. -/
theorem c7_amended_always_utf8_lossy_witness :
    find_definition hashConst lzoNone zlibNone
        ⟨[], [0, 0, 0, 0, 0, 0, 0, 0, 97, 0], "UTF-16", ""⟩ ⟨"a", 0, 10, 2, 0, 2⟩
      = some [97, 0] :=
  ((c7_amended_always_utf8_lossy hashConst lzoNone zlibNone
      [0, 0, 0, 0, 0, 0, 0, 0, 97, 0] [] [] "UTF-16" "UTF-8" "" ""
      ⟨"a", 0, 10, 2, 0, 2⟩).2 [] [97, 0]
    (by decide) (by decide) (by decide) (by decide)).trans (by decide)

/-- Claim C8: iteration is the offset table in order — when `items` succeeds
its records carry exactly the headwords of `records_offset` in table order,
and the i-th definition is exactly `find_definition` of the i-th offset.
Decoding is a pure function of the `Mdx` and the offset, so repeating an
iteration or a decode yields the identical result by construction. -/
theorem c8_items_follow_offset_table (ripemd128 : List Nat → List Nat)
    (lzo : List Nat → Nat → Option (List Nat)) (zlib : List Nat → Option (List Nat))
    (m : Mdx) (out : List Record)
    (h : items ripemd128 lzo zlib m = some out) :
    out.map Record.text = m.records_offset.map RecordOffset.text ∧
    ∀ i (hi : i < m.records_offset.length) (hi2 : i < out.length),
      find_definition ripemd128 lzo zlib m m.records_offset[i]
        = some out[i].definition := by
  unfold items at h
  obtain ⟨hlen, hget⟩ := mapM_option_length_get _ _ _ h
  constructor
  · apply List.ext_getElem (by simp [hlen])
    intro i h1 h2
    simp only [List.getElem_map]
    have hg := hget i (by simpa using h2) (by simpa using h1)
    rcases Option.map_eq_some'.mp hg with ⟨d, hd, hrec⟩
    rw [← hrec]
  · intro i hi hi2
    have hg := hget i hi hi2
    rcases Option.map_eq_some'.mp hg with ⟨d, hd, hrec⟩
    rw [hd, ← hrec]

/-- Witness for C8 on a one-record Mdx with an uncompressed block. -/
theorem c8_items_follow_offset_table_witness :
    ([⟨"a", [97, 98]⟩] : List Record).map Record.text
      = mdxSample.records_offset.map RecordOffset.text ∧
    ∀ i (_hi : i < mdxSample.records_offset.length)
      (hi2 : i < ([⟨"a", [97, 98]⟩] : List Record).length),
      find_definition hashConst lzoNone zlibNone mdxSample mdxSample.records_offset[i]
        = some (([⟨"a", [97, 98]⟩] : List Record)[i].definition) :=
  c8_items_follow_offset_table hashConst lzoNone zlibNone mdxSample
    [⟨"a", [97, 98]⟩] (by decide)

/-- Claim C9: the query front end walks the configured databases in order;
if no database row has text column equal to the word it returns the literal
"not found", and if some database holds a matching row while all earlier
databases hold none, it returns that first row's definition column. -/
theorem c9_query_first_match_or_not_found (word : String)
    (dbs : List (List (String × String))) :
    ((∀ db ∈ dbs, ∀ row ∈ db, row.1 ≠ word) → query dbs word = "not found") ∧
    (∀ pre db post row, dbs = pre ++ db :: post →
      (∀ d ∈ pre, ∀ r ∈ d, r.1 ≠ word) →
      db.find? (fun r => r.1 == word) = some row →
      query dbs word = row.2) := by
  constructor
  · intro h
    have h2 := query_append_of_no_match word dbs [] h
    simpa using h2
  · intro pre db post row hdbs hpre hfind
    subst hdbs
    rw [query_append_of_no_match word pre (db :: post) hpre]
    show (match db.find? (fun r => r.1 == word) with
      | some row => row.2
      | none => query post word) = row.2
    rw [hfind]

/-- Witness for C9: the second database holds the word, a later one holds a
decoy, the first holds nothing — the second database's definition wins. -/
theorem c9_query_first_match_or_not_found_witness :
    query [[("x", "1")], [("w", "good")], [("w", "bad")]] "w" = "good" :=
  (c9_query_first_match_or_not_found "w" _).2 [[("x", "1")]] [("w", "good")]
    [[("w", "bad")]] ("w", "good") rfl (by decide) (by decide)

/-- Claim C10: each unpack helper reads exactly its width from the front of
the slice — the value is the first 2/4/8 bytes interpreted in the requested
endianness, trailing bytes ignored — and panics (here: returns nothing) on a
shorter slice. -/
theorem c10_unpack_first_bytes (bytes : List Nat) (byteorder : Endian) :
    unpack_u16 bytes byteorder
        = (if 2 ≤ bytes.length then some (endianVal byteorder (bytes.take 2)) else none) ∧
    unpack_u32 bytes byteorder
        = (if 4 ≤ bytes.length then some (endianVal byteorder (bytes.take 4)) else none) ∧
    unpack_u64 bytes byteorder
        = (if 8 ≤ bytes.length then some (endianVal byteorder (bytes.take 8)) else none) := by
  rcases bytes with _ | ⟨b0, _ | ⟨b1, _ | ⟨b2, _ | ⟨b3, _ | ⟨b4, _ | ⟨b5, _ | ⟨b6, _ | ⟨b7, rest⟩⟩⟩⟩⟩⟩⟩⟩ <;>
    cases byteorder <;>
    refine ⟨?_, ?_, ?_⟩ <;>
    simp [unpack_u16, unpack_u32, unpack_u64, endianVal, leVal, beVal, List.getD] <;>
    omega
